import Mathlib

set_option maxHeartbeats 2000000
set_option maxRecDepth 8192

namespace BQ

/-! # Shallow embedding of the ExcelScript Bill-of-Quantities builder

Definitions translate the TypeScript sources (src/script/insertChildActivityItems.ts
and the script bodies embedded in src/README.md).  JavaScript built-ins used by the
source (String.prototype.split with a one-character separator, Array.prototype.join,
String.prototype.startsWith, Number(), number-to-string conversion, sparse array
writes through `arr.length = n` and `arr[i] = v`) are modelled by small explicit
Lean functions. -/

/-- A cell value read through getFormulas: either a number or a string
(the source casts quantity and rate to `number | string`). -/
inductive CellVal where
  | num (q : ℚ)
  | str (s : String)
deriving DecidableEq

/-- Model of JS String.prototype.split with a single-character separator:
splits at every occurrence, keeping empty pieces, and never returns an
empty list (the split of `""` is `[""]`). -/
def splitCharList (sep : Char) : List Char → List (List Char)
  | [] => [[]]
  | c :: cs =>
      let r := splitCharList sep cs
      if c = sep then [] :: r
      else (c :: r.headD []) :: r.tail

/-- `code.split("-")` from the source. -/
def jsSplitDash (s : String) : List String := (splitCharList '-' s.data).map String.mk

/-- The hyphen count of a code (the source computes it as the length of the
regex match list of all hyphens, defaulting to the empty list): the hierarchy
level of a code. -/
def countDash (s : String) : ℕ := s.data.count '-'

/-- Character-list prefix test (model of JS String.prototype.startsWith). -/
def strLeads : List Char → List Char → Bool
  | [], _ => true
  | _ :: _, [] => false
  | a :: as, b :: bs => a == b && strLeads as bs

/-- `s.startsWith(p)` from the source. -/
def jsStartsWith (s p : String) : Bool := strLeads p.data s.data

/-- Decimal digit character for `n % 10`. -/
def digitChar (n : ℕ) : Char :=
  match n % 10 with
  | 0 => '0' | 1 => '1' | 2 => '2' | 3 => '3' | 4 => '4'
  | 5 => '5' | 6 => '6' | 7 => '7' | 8 => '8' | _ => '9'

/-- Fuelled digit accumulator for natural-number printing. -/
def natToStrCore : ℕ → ℕ → List Char → List Char
  | 0, _, acc => acc
  | fuel + 1, n, acc =>
      if n < 10 then digitChar n :: acc else natToStrCore fuel (n / 10) (digitChar n :: acc)

/-- Model of JS number-to-string conversion for natural numbers
(`String(x)` / `x.toString()` on an integer value). -/
def natToStr (n : ℕ) : String := String.mk (natToStrCore (n + 1) n [])

/-- Numeric value of a digit string. -/
def digitsVal (cs : List Char) : ℕ := cs.foldl (fun n c => 10 * n + (c.toNat - 48)) 0

/-- Exact model of the nonnegative finite decimal values JS `Number` produces
on this program's code segments: an integer part and the fractional digit
characters (with no trailing zeros, as JS normalizes them away at parse
time). -/
structure JsDecimal where
  ip : ℕ
  frac : List Char
deriving DecidableEq

/-- Drops trailing zero digits of a fractional part. -/
def dropTrailingZeros (cs : List Char) : List Char :=
  (cs.reverse.dropWhile (fun c => c = '0')).reverse

/-- Model of JS `Number(string)` on the strings this program can meet as code
segments: the empty string converts to 0, digit strings to integers, strings
of the form `digits.digits` (one part possibly empty, not both) to decimals;
everything else is NaN, modelled as `none`. -/
def jsNumber (s : String) : Option JsDecimal :=
  let cs := s.data
  if cs.isEmpty then some ⟨0, []⟩
  else if cs.all Char.isDigit then some ⟨digitsVal cs, []⟩
  else
    match splitCharList '.' cs with
    | [ip, fp] =>
        if (ip.all Char.isDigit && fp.all Char.isDigit) && !(ip.isEmpty && fp.isEmpty)
        then some ⟨digitsVal ip, dropTrailingZeros fp⟩
        else none
    | _ => none

/-- Model of JS `lastSegment + 1` on such a value: the fractional part is in
`[0, 1)`, so adding one only bumps the integer part. -/
def jsDecimalSucc (d : JsDecimal) : JsDecimal := ⟨d.ip + 1, d.frac⟩

/-- Model of JS `String(number)` for these nonnegative finite decimals
(`String(lastSegment + 1)` in the source). -/
def numToString (d : JsDecimal) : String :=
  if d.frac.isEmpty then natToStr d.ip
  else natToStr d.ip ++ "." ++ String.mk d.frac

/-- `segments.join("-")` at the character-list level. -/
def joinDashCL : List (List Char) → List Char
  | [] => []
  | [x] => x
  | x :: y :: rest => x ++ '-' :: joinDashCL (y :: rest)

/-- Model of JS Array.prototype.join with separator `"-"`. -/
def joinDashStrs (xs : List String) : String := String.mk (joinDashCL (xs.map String.data))

/-- The final hyphen-delimited segment of a code
(`segments[segments.length - 1]`). -/
def lastSegmentOf (code : String) : String := (jsSplitDash code).getLastD ""

/-- Embeds incrementLastItemCodeSegment (insertChildActivityItems.ts, lines
459-472): split on `"-"`, convert the final segment with `Number`, throw on NaN
(modelled as `none`), otherwise write back the incremented final segment and
re-join with `"-"`. -/
def incrementLastItemCodeSegment (itemCode : String) : Option String :=
  let segments := jsSplitDash itemCode
  match jsNumber (segments.getLastD "") with
  | none => none
  | some lastSegment =>
      some (joinDashStrs (segments.set (segments.length - 1) (numToString (jsDecimalSucc lastSegment))))

/-! ## The reindexer (README.md, reindexItemCodes)

JS arrays written through `arr.length = n` and `arr[i] = v` are sparse; empty
slots read as `undefined`.  They are modelled as `List (Option _)` with `none`
for an empty slot. -/

/-- State of the reindexItemCodes loop: the path stack of code segments and
the per-level sibling counters. -/
structure ReindexState where
  pathStack : List (Option String)
  levelCounters : List (Option ℕ)
deriving DecidableEq

/-- Model of the JS assignment `arr.length = n`: truncate, or pad with empty
slots. -/
def jsArrSetLength (xs : List (Option α)) (n : ℕ) : List (Option α) :=
  xs.take n ++ List.replicate (n - xs.length) none

/-- Model of the JS read `arr[i]` (`undefined` for a missing index). -/
def jsArrGet (xs : List (Option α)) (i : ℕ) : Option α := xs.getD i none

/-- Model of the JS write `arr[i] = v` (extends the array when `i` is past the
end). -/
def jsArrSet (xs : List (Option α)) (i : ℕ) (v : α) : List (Option α) :=
  if i < xs.length then xs.set i (some v) else jsArrSetLength xs i ++ [some v]

/-- Model of JS template-literal rendering of a possibly-undefined string
(`undefined` renders as the string "undefined"). -/
def jsTemplateStr (o : Option String) : String := o.getD "undefined"

/-- Model of `pathStack.slice(1, level + 1).join("-")`: Array.prototype.join
renders empty slots as empty strings. -/
def joinDashOpt (xs : List (Option String)) : String :=
  String.mk (joinDashCL (xs.map (fun o => (o.getD "").data)))

/-- One iteration of the reindexItemCodes loop (README.md lines 366-401):
truncate the path stack and counters to the code's depth, then either restart
the root label (depth 0) or bump the sibling counter, and rebuild the code
from the path stack. -/
def reindexStep (st : ReindexState) (code : String) : ReindexState × String :=
  let parts := jsSplitDash code
  let level := parts.length - 1
  let path0 := jsArrSetLength st.pathStack level
  let ctr0 := jsArrSetLength st.levelCounters (level + 1)
  if level = 0 then
    (⟨jsArrSet path0 0 (parts.headD ""), jsArrSet ctr0 0 0⟩, parts.headD "")
  else
    let c := (jsArrGet ctr0 level).getD 0 + 1
    let ctr1 := jsArrSet ctr0 level c
    let path1 := jsArrSet path0 level (natToStr c)
    (⟨path1, ctr1⟩,
      jsTemplateStr (jsArrGet path1 0) ++ "-" ++ joinDashOpt ((path1.drop 1).take level))

/-- The reindexItemCodes loop over the whole list, threading the state. -/
def reindexAux (st : ReindexState) : List String → List String
  | [] => []
  | code :: rest =>
      (reindexStep st code).2 :: reindexAux (reindexStep st code).1 rest

/-- Embeds reindexItemCodes (README.md lines 355-405). -/
def reindexItemCodes (itemCodes : List String) : List String :=
  reindexAux ⟨[], []⟩ itemCodes

/-! ## Tree inference and the aggregator (updateActivityRowFormulas) -/

/-- One data row of the activity table, columns B to J as read through
getFormulas (columns D to F are unused by the scripts). -/
structure ActRow where
  itemCode : String
  activityName : String
  quantity : CellVal
  unit : String
  rate : CellVal
  cost : String
deriving DecidableEq

/-- The immediate-child test used throughout the scripts:
`next.itemCode.startsWith(current.itemCode + "-")` together with
`next.hierarchyLevel === current.hierarchyLevel + 1`. -/
def isChildCode (cand anc : String) : Bool :=
  jsStartsWith cand (anc ++ "-") && (countDash cand == countDash anc + 1)

/-- Embeds the hasChild marking loop (insertChildActivityItems.ts lines
137-147, identically README.md lines 243-253 and 507-517): a single pass that
compares each row with its immediate successor only; the last row keeps its
initial `false`. -/
def hasChildFlags : List ActRow → List Bool
  | [] => []
  | [_] => [false]
  | a :: b :: rest => isChildCode b.itemCode a.itemCode :: hasChildFlags (b :: rest)

/-- An activity object as built by updateActivityRowFormulas: table fields
plus row number, hierarchy level and the hasChild mark. -/
structure Act where
  rowNumber : ℕ
  itemCode : String
  quantity : CellVal
  unit : String
  rate : CellVal
  cost : String
  hierarchyLevel : ℕ
  hasChild : Bool
deriving DecidableEq

/-- Builds one activity object from a table row. -/
def mkAct (r : ℕ) (a : ActRow) (f : Bool) : Act :=
  ⟨r, a.itemCode, a.quantity, a.unit, a.rate, a.cost, countDash a.itemCode, f⟩

/-- Attaches row numbers (`dataTopRow + i`) and hasChild flags to the rows. -/
def buildActs : ℕ → List ActRow → List Bool → List Act
  | _, [], _ => []
  | r, a :: rest, fs => mkAct r a (fs.headD false) :: buildActs (r + 1) rest fs.tail

/-- The activity objects of a table, as updateActivityRowFormulas builds
them. -/
def actsOf (dataTopRow : ℕ) (table : List ActRow) : List Act :=
  buildActs dataTopRow table (hasChildFlags table)

/-- The four output cells (columns G to J) written back for one row. -/
structure ActOut where
  quantity : CellVal
  unit : String
  rate : CellVal
  cost : String
deriving DecidableEq

/-- The child filter of the roll-up loops: starts with the parent code plus
`"-"` and is exactly one level deeper (fields as stored on the objects). -/
def childRefCond (parent item : Act) : Bool :=
  jsStartsWith item.itemCode (parent.itemCode ++ "-") &&
    (item.hierarchyLevel == parent.hierarchyLevel + 1)

/-- The roll-up accumulation: starting from `init`, append `J<row>,` for every
immediate child, in table order. -/
def sumRefFold (acts : List Act) (parent : Act) (init : String) : String :=
  acts.foldl
    (fun s item =>
      if childRefCond parent item then s ++ ("J" ++ natToStr item.rowNumber ++ ",") else s)
    init

/-- Model of JS `s.slice(0, -1)`: drop the final character. -/
def jsDropLastChar (s : String) : String := String.mk s.data.dropLast

/-- The `"=SUM(" ... slice(0,-1) + ")"` construction over the immediate
children (both the cost and the rate roll-up use it). -/
def childSumFormula (acts : List Act) (parent : Act) : String :=
  jsDropLastChar (sumRefFold acts parent "=SUM(") ++ ")"

/-- The leaf cost formula written for a row
(`=IFERROR(IF(G<r>="-", "-", G<r>*I<r>), "[pending values]")`). -/
def leafCostFormula (r : ℕ) : String :=
  "=IFERROR(IF(G" ++ natToStr r ++ "=\"-\", \"-\", G" ++ natToStr r ++ "*I" ++
    natToStr r ++ "), \"[pending values]\")"

/-- Embeds the per-activity update of updateActivityRowFormulas
(insertChildActivityItems.ts lines 150-212, identically README.md lines
256-319): parents either preserve their measured quantity and roll costs up
through the rate, or take lump-sum mode; leaves get placeholders and the
conditional cost formula. -/
def transformAct (acts : List Act) (a : Act) : ActOut :=
  if a.hasChild then
    if a.unit != "LS" && !(a.quantity == CellVal.num 1) && !(a.quantity == CellVal.str "[qty]")
    then
      ⟨a.quantity, a.unit, CellVal.str (childSumFormula acts a), leafCostFormula a.rowNumber⟩
    else
      ⟨CellVal.num 1, "LS", CellVal.str "", childSumFormula acts a⟩
  else
    ⟨if a.quantity == CellVal.str "" then CellVal.str "[qty]" else a.quantity,
     if a.unit == "" then "[unit]" else a.unit,
     if a.rate == CellVal.str "" || a.rate == CellVal.str "#REF!" then CellVal.str "[rate]"
       else a.rate,
     leafCostFormula a.rowNumber⟩

/-- Embeds the in-memory G:J computation of updateActivityRowFormulas: build
the activity objects, then map the per-activity update over them. -/
def updateActivityRows (dataTopRow : ℕ) (table : List ActRow) : List ActOut :=
  (actsOf dataTopRow table).map (transformAct (actsOf dataTopRow table))

/-! ## The insertion planner (computeNewChildItemCodeAndInsertionRow) -/

/-- The descendant filter of getAllChildActivityItemCodes: starts with the
parent code plus `"-"` and sits at a strictly deeper hierarchy level. -/
def isDescendantCode (cand anc : String) : Bool :=
  jsStartsWith cand (anc ++ "-") && decide (countDash anc < countDash cand)

/-- Row numbers attached to the codes scanned below a row, as
getAllItemCodesFromGivenRow returns them. -/
def itemCodesFrom : ℕ → List String → List (ℕ × String)
  | _, [] => []
  | r, c :: cs => (r, c) :: itemCodesFrom (r + 1) cs

/-- Embeds computeNewChildItemCodeAndInsertionRow (insertChildActivityItems.ts
lines 406-449) together with getAllChildActivityItemCodes (lines 362-391).
`codesBelow` models the contiguous column-B scan
getAllItemCodesFromGivenRow(sheet, "B", selectedParentRow + 1); the result is
(insertion row, new child code, new child hierarchy level), or `none` when the
script would throw (Number NaN in incrementLastItemCodeSegment, or the
undefined access when descendants exist but none sits exactly one level
deeper). -/
def computeNewChildItemCodeAndInsertionRow (selectedParentRow : ℕ)
    (parentItemCode : String) (codesBelow : List String) :
    Option (ℕ × String × ℕ) :=
  let parentHierarchyLevel := countDash parentItemCode
  let childItems :=
    (itemCodesFrom (selectedParentRow + 1) codesBelow).filter
      (fun item => isDescendantCode item.2 parentItemCode)
  if childItems.length = 0 then
    some (selectedParentRow + 1, parentItemCode ++ "-1", parentHierarchyLevel + 1)
  else
    let matchingLevelChildren :=
      childItems.filter (fun item => countDash item.2 == parentHierarchyLevel + 1)
    match matchingLevelChildren.getLast?, childItems.getLast? with
    | some lastImmediateChild, some lastAbsoluteChild =>
        match incrementLastItemCodeSegment lastImmediateChild.2 with
        | some newChildItemCode =>
            some (lastAbsoluteChild.1 + 1, newChildItemCode, parentHierarchyLevel + 1)
        | none => none
    | _, _ => none

/-! ## The delete-and-refresh operation (README.md) -/

/-- The worksheet model the delete operation needs: the contiguous data rows
of the activity table.  The table header sits at row 9, data starts at row 10,
and the grand-total marker row sits immediately below the last data row, so
`dataTopRow = 10` and `dataBottomRow = 9 + rows.length` exactly as
transformTableToActivityObjects computes them from the column-B edge scan. -/
structure Sheet where
  rows : List ActRow
deriving DecidableEq

/-- `dataTopRow` for header row 9. -/
def dataTopRowOf (_ : Sheet) : ℕ := 10

/-- `dataBottomRow` for header row 9. -/
def dataBottomRowOf (s : Sheet) : ℕ := 9 + s.rows.length

/-- Writes a computed G:J block back into the rows. -/
def applyOuts (rows : List ActRow) (outs : List ActOut) : List ActRow :=
  rows.zipWith
    (fun r o => { r with quantity := o.quantity, unit := o.unit, rate := o.rate, cost := o.cost })
    outs

/-- Embeds updateActivityRowFormulas as a sheet transformation (README.md
lines 186-333): early exit when the table is empty, otherwise write the
computed G:J block back. -/
def runUpdateActivityRowFormulas (s : Sheet) : Sheet :=
  if s.rows.length = 0 then s
  else { rows := applyOuts s.rows (updateActivityRows 10 s.rows) }

/-- Embeds refreshActivityItemCodes (README.md lines 147-168): rewrite column
B with the reindexed codes. -/
def runRefreshActivityItemCodes (s : Sheet) : Sheet :=
  { rows :=
      s.rows.zipWith (fun r c => { r with itemCode := c })
        (reindexItemCodes (s.rows.map ActRow.itemCode)) }

/-- Embeds deleteSelectedActivitiesAndRefresh (README.md lines 100-123): the
bounds check comes first and the throw happens before any grid write, so the
error case returns the untouched sheet together with the error message;
otherwise the selected rows are deleted and the codes and formulas are
refreshed. -/
def deleteSelectedActivitiesAndRefresh (s : Sheet) (selTop selBot : ℕ) :
    Sheet × Option String :=
  if selTop < dataTopRowOf s ∨ selBot > dataBottomRowOf s then
    (s, some "Selected row not deleted - row not within data range!")
  else
    let s1 : Sheet := { rows := s.rows.take (selTop - 10) ++ s.rows.drop (selBot - 10 + 1) }
    (runUpdateActivityRowFormulas (runRefreshActivityItemCodes s1), none)

/-! ## Spec-side companion definitions -/

/-- Comma-separated join, as the spec describes the list of child cost
references inside the SUM roll-up. -/
def intercalateComma : List String → String
  | [] => ""
  | [x] => x
  | x :: y :: rest => x ++ "," ++ intercalateComma (y :: rest)

/-- Modelled from the spec: the claimed roll-up formula, a SUM over the cost
cells (column J) of the parent's immediate children, comma-separated. -/
def specChildCostSum (acts : List Act) (parent : Act) : String :=
  "=SUM(" ++
    intercalateComma
      ((acts.filter (childRefCond parent)).map (fun it => "J" ++ natToStr it.rowNumber)) ++
    ")"

/-- The claim's notion of a valid-integer string: nonempty and all digits. -/
def isIntegerString (s : String) : Bool := !s.data.isEmpty && s.data.all Char.isDigit

/-- Default row used with `List.getD`. -/
def defRow : ActRow := ⟨"", "", CellVal.str "", "", CellVal.str "", ""⟩

/-- Default activity object used with `List.getD`. -/
def defAct : Act := ⟨0, "", CellVal.str "", "", CellVal.str "", "", 0, false⟩

/-- Default output cell block used with `List.getD`. -/
def defOut : ActOut := ⟨CellVal.str "", "", CellVal.str "", ""⟩

/-! ## Basic lemmas about the string primitives -/

theorem strData_append (a b : String) : (a ++ b).data = a.data ++ b.data := by
  cases a; cases b; rfl

theorem strMk_data (s : String) : String.mk s.data = s := by
  cases s; rfl

theorem splitCharList_ne_nil (sep : Char) (cs : List Char) : splitCharList sep cs ≠ [] := by
  cases cs with
  | nil => simp [splitCharList]
  | cons c cs =>
      simp only [splitCharList]
      split <;> simp

theorem splitCharList_sep_not_mem (sep : Char) :
    ∀ cs, ∀ p ∈ splitCharList sep cs, sep ∉ p := by
  intro cs
  induction cs with
  | nil => intro p hp; simp [splitCharList] at hp; simp [hp]
  | cons c cs ih =>
      intro p hp
      simp only [splitCharList] at hp
      by_cases hc : c = sep
      · rw [if_pos hc] at hp
        rcases List.mem_cons.mp hp with h | h
        · simp [h]
        · exact ih p h
      · rw [if_neg hc] at hp
        rcases List.mem_cons.mp hp with h | h
        · subst h
          intro hmem
          rcases List.mem_cons.mp hmem with h | h
          · exact hc h.symm
          · have hne := splitCharList_ne_nil sep cs
            have hhd : (splitCharList sep cs).headD [] ∈ splitCharList sep cs := by
              cases hsp : splitCharList sep cs with
              | nil => exact absurd hsp hne
              | cons q qs => simp
            exact ih _ hhd h
        · exact ih p (List.mem_of_mem_tail h)

theorem splitCharList_length (sep : Char) :
    ∀ cs : List Char, (splitCharList sep cs).length = cs.count sep + 1 := by
  intro cs
  induction cs with
  | nil => simp [splitCharList]
  | cons c cs ih =>
      simp only [splitCharList]
      by_cases hc : c = sep
      · rw [if_pos hc]
        simp [List.count_cons, hc, ih]
      · rw [if_neg hc]
        have hne := splitCharList_ne_nil sep cs
        have hlen : (splitCharList sep cs).length ≠ 0 := by
          simpa [List.length_eq_zero] using hne
        simp only [List.length_cons, List.length_tail]
        rw [List.count_cons]
        simp only [beq_iff_eq]
        rw [if_neg hc]
        omega

theorem splitCharList_of_not_mem (sep : Char) (cs : List Char) (h : sep ∉ cs) :
    splitCharList sep cs = [cs] := by
  induction cs with
  | nil => simp [splitCharList]
  | cons c cs ih =>
      have hc : c ≠ sep := fun hh => h (hh ▸ List.mem_cons_self c cs)
      have hcs : sep ∉ cs := fun hh => h (List.mem_cons_of_mem c hh)
      simp only [splitCharList]
      rw [if_neg hc, ih hcs]
      rfl

theorem splitCharList_append (sep : Char) (xs ys : List Char) (h : sep ∉ xs) :
    splitCharList sep (xs ++ sep :: ys) = xs :: splitCharList sep ys := by
  induction xs with
  | nil => simp [splitCharList]
  | cons c xs ih =>
      have hc : c ≠ sep := fun hh => h (hh ▸ List.mem_cons_self c xs)
      have hxs : sep ∉ xs := fun hh => h (List.mem_cons_of_mem c hh)
      simp only [List.cons_append, splitCharList]
      rw [if_neg hc]
      simp only [List.append_eq]
      rw [ih hxs]
      rfl

theorem joinDashCL_split (pss : List (List Char)) (h1 : ∀ p ∈ pss, '-' ∉ p)
    (h2 : pss ≠ []) : splitCharList '-' (joinDashCL pss) = pss := by
  induction pss with
  | nil => exact absurd rfl h2
  | cons x rest ih =>
      cases rest with
      | nil =>
          simp only [joinDashCL]
          exact splitCharList_of_not_mem _ x (h1 x (List.mem_cons_self x []))
      | cons y t =>
          simp only [joinDashCL]
          rw [splitCharList_append _ x _ (h1 x (List.mem_cons_self x _))]
          rw [ih (fun p hp => h1 p (List.mem_cons_of_mem x hp)) (by simp)]

theorem digitChar_ne_dash (n : ℕ) : digitChar n ≠ '-' := by
  have h : n % 10 < 10 := Nat.mod_lt _ (by decide)
  unfold digitChar
  generalize hm : n % 10 = m at h ⊢
  interval_cases m <;> decide

theorem natToStrCore_chars :
    ∀ fuel n acc c, c ∈ natToStrCore fuel n acc → c ∈ acc ∨ ∃ m, c = digitChar m := by
  intro fuel
  induction fuel with
  | zero => intro n acc c hc; exact Or.inl hc
  | succ fuel ih =>
      intro n acc c hc
      simp only [natToStrCore] at hc
      split at hc
      · rcases List.mem_cons.mp hc with h | h
        · exact Or.inr ⟨n, h⟩
        · exact Or.inl h
      · rcases ih _ _ _ hc with h | h
        · rcases List.mem_cons.mp h with h | h
          · exact Or.inr ⟨n, h⟩
          · exact Or.inl h
        · exact Or.inr h

theorem natToStr_no_dash (n : ℕ) : '-' ∉ (natToStr n).data := by
  intro h
  rcases natToStrCore_chars (n + 1) n [] '-' h with h | ⟨m, hm⟩
  · simp at h
  · exact digitChar_ne_dash m hm.symm

/-! ## Basic lemmas about the sparse-array model -/

theorem jsArrSetLength_length (xs : List (Option α)) (n : ℕ) :
    (jsArrSetLength xs n).length = n := by
  simp only [jsArrSetLength, List.length_append, List.length_take, List.length_replicate]
  omega

theorem jsArrSetLength_mem (xs : List (Option α)) (n : ℕ) (o : Option α)
    (h : o ∈ jsArrSetLength xs n) : o ∈ xs ∨ o = none := by
  simp only [jsArrSetLength, List.mem_append] at h
  rcases h with h | h
  · exact Or.inl (List.mem_of_mem_take h)
  · exact Or.inr (List.eq_of_mem_replicate h)

theorem mem_of_mem_listSet {l : List α} {i : ℕ} {b a : α} (h : a ∈ l.set i b) :
    a ∈ l ∨ a = b := by
  induction l generalizing i with
  | nil => simp at h
  | cons x xs ih =>
      cases i with
      | zero =>
          rcases List.mem_cons.mp h with h | h
          · exact Or.inr h
          · exact Or.inl (List.mem_cons_of_mem x h)
      | succ i =>
          rcases List.mem_cons.mp h with h | h
          · exact Or.inl (h ▸ List.mem_cons_self x xs)
          · rcases ih h with h | h
            · exact Or.inl (List.mem_cons_of_mem x h)
            · exact Or.inr h

theorem jsArrSet_mem (xs : List (Option α)) (i : ℕ) (v : α) (o : Option α)
    (h : o ∈ jsArrSet xs i v) : o ∈ xs ∨ o = some v ∨ o = none := by
  simp only [jsArrSet] at h
  split at h
  · rcases mem_of_mem_listSet h with h | h
    · exact Or.inl h
    · exact Or.inr (Or.inl h)
  · rcases List.mem_append.mp h with h | h
    · rcases jsArrSetLength_mem xs i o h with h | h
      · exact Or.inl h
      · exact Or.inr (Or.inr h)
    · simp at h
      exact Or.inr (Or.inl h)

theorem jsArrSet_length_at_end (xs : List (Option α)) (v : α) (h : i = xs.length) :
    jsArrSet xs i v = xs ++ [some v] := by
  subst h
  simp only [jsArrSet]
  rw [if_neg (by omega)]
  simp [jsArrSetLength]

theorem jsArrGet_none_or_mem (xs : List (Option α)) (i : ℕ) :
    jsArrGet xs i = none ∨ jsArrGet xs i ∈ xs := by
  induction xs generalizing i with
  | nil => exact Or.inl rfl
  | cons x xs ih =>
      cases i with
      | zero => exact Or.inr (List.mem_cons_self x xs)
      | succ i =>
          rcases ih i with h | h
          · exact Or.inl h
          · exact Or.inr (List.mem_cons_of_mem x h)

/-! ## Reindexer lemmas -/

/-- Invariant of the reindexItemCodes loop: every filled path-stack slot holds
a hyphen-free string (root labels of depth-0 codes or printed counters). -/
def PathOK (xs : List (Option String)) : Prop :=
  ∀ s : String, some s ∈ xs → '-' ∉ s.data

theorem jsSplitDash_length (code : String) :
    (jsSplitDash code).length = countDash code + 1 := by
  simp [jsSplitDash, splitCharList_length, countDash]

theorem jsSplitDash_ne_nil (code : String) : jsSplitDash code ≠ [] := by
  simp [jsSplitDash, splitCharList_ne_nil]

theorem jsSplitDash_of_no_dash (code : String) (h : countDash code = 0) :
    jsSplitDash code = [code] := by
  have hnm : '-' ∉ code.data := List.count_eq_zero.mp h
  simp [jsSplitDash, splitCharList_of_not_mem '-' code.data hnm, strMk_data]

theorem headPiece_no_dash (code : String) : '-' ∉ ((jsSplitDash code).headD "").data := by
  cases hsp : splitCharList '-' code.data with
  | nil => exact absurd hsp (splitCharList_ne_nil '-' code.data)
  | cons p ps =>
      have hmem : p ∈ splitCharList '-' code.data := by rw [hsp]; exact List.mem_cons_self p ps
      have := splitCharList_sep_not_mem '-' code.data p hmem
      simpa [jsSplitDash, hsp] using this

/-- The else branch of reindexStep as a function of the state and the level
only (the source reads nothing else from the code there). -/
def reindexElse (st : ReindexState) (level : ℕ) : ReindexState × String :=
  let path0 := jsArrSetLength st.pathStack level
  let ctr0 := jsArrSetLength st.levelCounters (level + 1)
  let c := (jsArrGet ctr0 level).getD 0 + 1
  let ctr1 := jsArrSet ctr0 level c
  let path1 := jsArrSet path0 level (natToStr c)
  (⟨path1, ctr1⟩,
    jsTemplateStr (jsArrGet path1 0) ++ "-" ++ joinDashOpt ((path1.drop 1).take level))

theorem reindexStep_eq_else (st : ReindexState) (code : String)
    (hL : (jsSplitDash code).length - 1 ≠ 0) :
    reindexStep st code = reindexElse st ((jsSplitDash code).length - 1) := by
  simp only [reindexStep, reindexElse]
  rw [if_neg hL]

theorem reindexStep_eq_then (st : ReindexState) (code : String)
    (hL : (jsSplitDash code).length - 1 = 0) :
    reindexStep st code =
      (⟨jsArrSet (jsArrSetLength st.pathStack 0) 0 ((jsSplitDash code).headD ""),
        jsArrSet (jsArrSetLength st.levelCounters 1) 0 0⟩,
       (jsSplitDash code).headD "") := by
  simp only [reindexStep, hL, if_pos]

theorem pathOK_write (xs : List (Option String)) (n i : ℕ) (v : String)
    (hxs : PathOK xs) (hv : '-' ∉ v.data) :
    PathOK (jsArrSet (jsArrSetLength xs n) i v) := by
  intro s hs
  rcases jsArrSet_mem _ _ _ _ hs with h | h | h
  · rcases jsArrSetLength_mem _ _ _ h with h | h
    · exact hxs s h
    · simp at h
  · rw [Option.some.injEq] at h
    exact h ▸ hv
  · simp at h

theorem reindexElse_path (st : ReindexState) (L : ℕ) :
    (reindexElse st L).1.pathStack =
      jsArrSet (jsArrSetLength st.pathStack L) L
        (natToStr ((jsArrGet (jsArrSetLength st.levelCounters (L + 1)) L).getD 0 + 1)) := rfl

theorem reindexElse_out_split (st : ReindexState) (L : ℕ) (hst : PathOK st.pathStack)
    (hL : L ≠ 0) :
    (splitCharList '-' ((reindexElse st L).2).data).length = L + 1 := by
  have hpath : PathOK (reindexElse st L).1.pathStack := by
    rw [reindexElse_path]
    exact pathOK_write _ _ _ _ hst (natToStr_no_dash _)
  set path1 := (reindexElse st L).1.pathStack with hpath1
  have hlen1 : path1.length = L + 1 := by
    rw [hpath1, reindexElse_path,
      jsArrSet_length_at_end _ _ (jsArrSetLength_length st.pathStack L).symm]
    simp [jsArrSetLength_length]
  have hout : (reindexElse st L).2 =
      jsTemplateStr (jsArrGet path1 0) ++ "-" ++ joinDashOpt ((path1.drop 1).take L) := rfl
  set segs := (path1.drop 1).take L with hsegs
  have hsegslen : segs.length = L := by
    rw [hsegs]
    simp [hlen1]
  have hsegmem : ∀ o ∈ segs, '-' ∉ ((o : Option String).getD "").data := by
    intro o ho
    have : o ∈ path1 := List.mem_of_mem_drop (List.mem_of_mem_take ho)
    cases o with
    | none => simp
    | some s => exact hpath s this
  have hrender : '-' ∉ (jsTemplateStr (jsArrGet path1 0)).data := by
    cases hg : jsArrGet path1 0 with
    | none => decide
    | some s =>
        have hmem : some s ∈ path1 := by
          rcases jsArrGet_none_or_mem path1 0 with h | h
          · rw [h] at hg; simp at hg
          · rw [hg] at h; exact h
        simpa [jsTemplateStr] using hpath s hmem
  have hdata : ((reindexElse st L).2).data =
      (jsTemplateStr (jsArrGet path1 0)).data ++
        '-' :: joinDashCL (segs.map (fun o => (o.getD "").data)) := by
    rw [hout, strData_append, strData_append]
    simp [joinDashOpt]
  rw [hdata, splitCharList_append _ _ _ hrender]
  rw [joinDashCL_split]
  · simp [hsegslen]
  · intro p hp
    rcases List.mem_map.mp hp with ⟨o, ho, rfl⟩
    exact hsegmem o ho
  · simp only [ne_eq, List.map_eq_nil_iff]
    intro hnil
    rw [hnil] at hsegslen
    simp at hsegslen
    omega

theorem reindexStep_countDash (st : ReindexState) (code : String)
    (hst : PathOK st.pathStack) :
    countDash (reindexStep st code).2 = countDash code ∧
      (countDash code = 0 → (reindexStep st code).2 = code) := by
  by_cases h0 : countDash code = 0
  · have hL : (jsSplitDash code).length - 1 = 0 := by rw [jsSplitDash_length, h0]
    have hout : (reindexStep st code).2 = (jsSplitDash code).headD "" := by
      rw [reindexStep_eq_then st code hL]
    have heq : (jsSplitDash code).headD "" = code := by
      rw [jsSplitDash_of_no_dash code h0]
      rfl
    rw [hout, heq]
    exact ⟨rfl, fun _ => rfl⟩
  · have hL : (jsSplitDash code).length - 1 ≠ 0 := by
      rw [jsSplitDash_length]
      omega
    have hLval : (jsSplitDash code).length - 1 = countDash code := by
      rw [jsSplitDash_length]
      omega
    rw [reindexStep_eq_else st code hL, hLval]
    constructor
    · have hsplit := reindexElse_out_split st (countDash code) hst h0
      rw [splitCharList_length] at hsplit
      simp only [countDash] at hsplit ⊢
      omega
    · intro hc
      exact absurd hc h0

theorem reindexStep_pathOK (st : ReindexState) (code : String)
    (hst : PathOK st.pathStack) : PathOK (reindexStep st code).1.pathStack := by
  by_cases h0 : (jsSplitDash code).length - 1 = 0
  · rw [reindexStep_eq_then st code h0]
    exact pathOK_write _ _ _ _ hst (headPiece_no_dash code)
  · rw [reindexStep_eq_else st code h0, reindexElse_path]
    exact pathOK_write _ _ _ _ hst (natToStr_no_dash _)

theorem reindexStep_idem (st : ReindexState) (code : String)
    (hst : PathOK st.pathStack) :
    reindexStep st (reindexStep st code).2 = reindexStep st code := by
  by_cases h0 : countDash code = 0
  · have hL : (jsSplitDash code).length - 1 = 0 := by rw [jsSplitDash_length, h0]
    have hout : (reindexStep st code).2 = (jsSplitDash code).headD "" := by
      rw [reindexStep_eq_then st code hL]
    have hnostroke : countDash (reindexStep st code).2 = 0 := by
      rw [hout]
      exact List.count_eq_zero.mpr (headPiece_no_dash code)
    have hL2 : (jsSplitDash (reindexStep st code).2).length - 1 = 0 := by
      rw [jsSplitDash_length, hnostroke]
    have hsplit2 : jsSplitDash (reindexStep st code).2 = [(reindexStep st code).2] :=
      jsSplitDash_of_no_dash _ hnostroke
    rw [reindexStep_eq_then st _ hL2, hsplit2]
    simp only [List.headD_cons]
    rw [hout, reindexStep_eq_then st code hL]
  · have hcd := (reindexStep_countDash st code hst).1
    have hL : (jsSplitDash code).length - 1 ≠ 0 := by rw [jsSplitDash_length]; omega
    have hL2 : (jsSplitDash (reindexStep st code).2).length - 1 ≠ 0 := by
      rw [jsSplitDash_length, hcd]
      omega
    have harg : (jsSplitDash (reindexStep st code).2).length - 1 =
        (jsSplitDash code).length - 1 := by
      rw [jsSplitDash_length, jsSplitDash_length, hcd]
    rw [reindexStep_eq_else st _ hL2, harg, reindexStep_eq_else st code hL]

theorem reindexAux_length (l : List String) : ∀ st, (reindexAux st l).length = l.length := by
  induction l with
  | nil => intro st; rfl
  | cons c rest ih => intro st; simp [reindexAux, ih]

theorem reindexAux_idem (l : List String) :
    ∀ st, PathOK st.pathStack → reindexAux st (reindexAux st l) = reindexAux st l := by
  induction l with
  | nil => intro st _; rfl
  | cons c rest ih =>
      intro st hst
      simp only [reindexAux]
      rw [reindexStep_idem st c hst]
      rw [ih (reindexStep st c).1 (reindexStep_pathOK st c hst)]

theorem reindexAux_depth (l : List String) :
    ∀ st, PathOK st.pathStack → ∀ i, i < l.length →
      countDash ((reindexAux st l).getD i "") = countDash (l.getD i "") ∧
        (countDash (l.getD i "") = 0 → (reindexAux st l).getD i "" = l.getD i "") := by
  induction l with
  | nil => intro st _ i hi; simp at hi
  | cons c rest ih =>
      intro st hst i hi
      cases i with
      | zero =>
          simp only [reindexAux, List.getD_cons_zero]
          exact reindexStep_countDash st c hst
      | succ i =>
          simp only [reindexAux, List.getD_cons_succ]
          exact ih (reindexStep st c).1 (reindexStep_pathOK st c hst) i
            (by simpa using Nat.lt_of_succ_lt_succ hi)

theorem pathOK_nil : PathOK ([] : List (Option String)) := by
  intro s hs
  simp at hs

/-! ## Claims about the reindexer -/

/-- Claim C2: reindexItemCodes applied to the list
["A","A-1","A-1-1","A-1-3","A-2","A-2-1","A-3","A-3-2"] returns exactly
["A","A-1","A-1-1","A-1-2","A-2","A-2-1","A-3","A-3-1"]. -/
theorem claim_C2_reindex_example :
    reindexItemCodes ["A", "A-1", "A-1-1", "A-1-3", "A-2", "A-2-1", "A-3", "A-3-2"] =
      ["A", "A-1", "A-1-1", "A-1-2", "A-2", "A-2-1", "A-3", "A-3-1"] := by
  decide

/-- Claim C3: reindexItemCodes is idempotent: for every input list `l`,
reindexItemCodes (reindexItemCodes l) = reindexItemCodes l; in particular every
already-reindexed (contiguous) list is returned unchanged. -/
theorem claim_C3_reindex_idempotent (l : List String) :
    reindexItemCodes (reindexItemCodes l) = reindexItemCodes l :=
  reindexAux_idem l ⟨[], []⟩ pathOK_nil

/-- Claim C4 counterexample: on the input ["A-1"] the reindexer returns
["undefined-1"], whose root segment "undefined" differs from the input's root
segment "A" — so it is not true that only the numeric values of non-root
segments change. -/
theorem claim_C4_counterexample :
    reindexItemCodes ["A-1"] = ["undefined-1"] ∧
      (jsSplitDash ((reindexItemCodes ["A-1"]).getD 0 "")).headD "" ≠
        (jsSplitDash "A-1").headD "" := by
  decide

/-- Claim C4 (amended): for every input list, reindexItemCodes returns a list
of the same length in which the i-th output code has the same depth (hyphen
count) and position as the i-th input code, and depth-0 codes are returned
verbatim; non-root segments are renumbered, and the root segment of a
depth > 0 code is rebuilt from the path stack (the nearest preceding depth-0
label, or "undefined"), so root segments of deeper codes are not guaranteed to
be preserved. -/
theorem claim_C4_reindex_shape (l : List String) (i : ℕ) (h : i < l.length) :
    (reindexItemCodes l).length = l.length ∧
      countDash ((reindexItemCodes l).getD i "") = countDash (l.getD i "") ∧
      (countDash (l.getD i "") = 0 → (reindexItemCodes l).getD i "" = l.getD i "") := by
  exact ⟨reindexAux_length l _, (reindexAux_depth l ⟨[], []⟩ pathOK_nil i h).1,
    (reindexAux_depth l ⟨[], []⟩ pathOK_nil i h).2⟩

/-- Witness for C4 (amended) at the concrete list ["B", "B-7"], index 1. -/
theorem claim_C4_witness :
    1 < (["B", "B-7"] : List String).length ∧
      ((reindexItemCodes ["B", "B-7"]).length = (["B", "B-7"] : List String).length ∧
        countDash ((reindexItemCodes ["B", "B-7"]).getD 1 "") =
          countDash ((["B", "B-7"] : List String).getD 1 "") ∧
        (countDash ((["B", "B-7"] : List String).getD 1 "") = 0 →
          (reindexItemCodes ["B", "B-7"]).getD 1 "" =
            (["B", "B-7"] : List String).getD 1 "")) :=
  ⟨by decide, claim_C4_reindex_shape ["B", "B-7"] 1 (by decide)⟩

/-! ## Claims about incrementLastItemCodeSegment -/

/-- Claim C6 counterexample: the final segment "1.5" of "A-1.5" is not a valid
integer, yet incrementLastItemCodeSegment does not fail on it — it returns
"A-2.5" (JS Number parses decimals), refuting the claim that every
non-integer final segment faults. -/
theorem claim_C6_counterexample :
    isIntegerString (lastSegmentOf "A-1.5") = false ∧
      incrementLastItemCodeSegment "A-1.5" = some "A-2.5" := by
  decide

/-- Claim C6 (amended): incrementLastItemCodeSegment "A-1-3" = "A-1-4", and
for every code whose final hyphen-delimited segment is not a valid number
under JS Number conversion (NaN — e.g. the root-only code "A"), it fails with
InvalidCodeError (modelled as `none`) rather than returning a code; final
segments that are valid non-integer numbers, such as "1.5", succeed. -/
theorem claim_C6_increment_error (code : String)
    (h : jsNumber (lastSegmentOf code) = none) :
    incrementLastItemCodeSegment "A-1-3" = some "A-1-4" ∧
      incrementLastItemCodeSegment code = none := by
  refine ⟨by decide, ?_⟩
  simp only [incrementLastItemCodeSegment, lastSegmentOf] at h ⊢
  rw [h]

/-- Witness for C6 (amended) at the root-only code "A". -/
theorem claim_C6_witness :
    jsNumber (lastSegmentOf "A") = none ∧ incrementLastItemCodeSegment "A" = none :=
  ⟨by decide, (claim_C6_increment_error "A" (by decide)).2⟩

/-- Claim C10: incrementLastItemCodeSegment throws iff Number applied to the
final hyphen-delimited segment yields NaN; consequently it succeeds on final
segments that are not positive integers: "A-" returns "A-1" (Number("") is 0)
and "A-1.5" returns "A-2.5". -/
theorem claim_C10_increment_nan_iff :
    (∀ code : String,
        incrementLastItemCodeSegment code = none ↔ jsNumber (lastSegmentOf code) = none) ∧
      incrementLastItemCodeSegment "A-" = some "A-1" ∧
      incrementLastItemCodeSegment "A-1.5" = some "A-2.5" := by
  refine ⟨fun code => ?_, by decide, by decide⟩
  simp only [incrementLastItemCodeSegment, lastSegmentOf]
  cases h : jsNumber ((jsSplitDash code).getLastD "") with
  | none => simp
  | some d => simp

/-! ## List-indexing helper lemmas -/

theorem get?_eq_some_getD (l : List α) (d : α) :
    ∀ i, i < l.length → l.get? i = some (l.getD i d) := by
  induction l with
  | nil => intro i hi; simp at hi
  | cons x xs ih =>
      intro i hi
      cases i with
      | zero => rfl
      | succ i =>
          simp only [List.get?_cons_succ, List.getD_cons_succ]
          exact ih i (by simpa using Nat.lt_of_succ_lt_succ hi)

theorem getD_mem (l : List α) (d : α) :
    ∀ i, i < l.length → l.getD i d ∈ l := by
  induction l with
  | nil => intro i hi; simp at hi
  | cons x xs ih =>
      intro i hi
      cases i with
      | zero => exact List.mem_cons_self x xs
      | succ i =>
          simp only [List.getD_cons_succ]
          exact List.mem_cons_of_mem x (ih i (by simpa using Nat.lt_of_succ_lt_succ hi))

theorem getD_map (l : List α) (f : α → β) (d1 : α) (d2 : β) :
    ∀ i, i < l.length → (l.map f).getD i d2 = f (l.getD i d1) := by
  induction l with
  | nil => intro i hi; simp at hi
  | cons x xs ih =>
      intro i hi
      cases i with
      | zero => rfl
      | succ i =>
          simp only [List.map_cons, List.getD_cons_succ]
          exact ih i (by simpa using Nat.lt_of_succ_lt_succ hi)

theorem headD_eq_getD_zero (fs : List Bool) : fs.headD false = fs.getD 0 false := by
  cases fs <;> rfl

theorem tail_getD_bool (fs : List Bool) (i : ℕ) :
    fs.tail.getD i false = fs.getD (i + 1) false := by
  cases fs <;> simp [List.getD]

/-! ## Tree-inference lemmas -/

theorem hasChildFlags_length : ∀ t : List ActRow, (hasChildFlags t).length = t.length := by
  intro t
  induction t with
  | nil => rfl
  | cons a rest ih =>
      cases rest with
      | nil => rfl
      | cons b t2 => simpa [hasChildFlags] using ih

theorem hasChildFlags_true_iff (t : List ActRow) :
    ∀ i, i < t.length →
      ((hasChildFlags t).getD i false = true ↔
        ∃ b, t.get? (i + 1) = some b ∧
          isChildCode b.itemCode ((t.getD i defRow).itemCode) = true) := by
  induction t with
  | nil => intro i hi; simp at hi
  | cons a rest ih =>
      intro i hi
      cases rest with
      | nil =>
          have hi0 : i = 0 := by simpa using Nat.lt_one_iff.mp (by simpa using hi)
          subst hi0
          simp [hasChildFlags]
      | cons b t2 =>
          cases i with
          | zero =>
              simp [hasChildFlags]
          | succ i =>
              have hi2 : i < (b :: t2).length := by simpa using Nat.lt_of_succ_lt_succ hi
              simp only [hasChildFlags, List.getD_cons_succ, List.get?_cons_succ]
              exact ih i hi2

/-- Claim C5: in tree inference, row i is marked hasChild = true iff a
successor row i+1 exists whose code starts with row i's code followed by the
separator "-" and whose depth equals row i's depth plus 1; in particular a row
whose successor index equals the row count (the last row) is never marked
hasChild.  Only the immediate successor is consulted: the criterion mentions
row i+1 and no other row. -/
theorem claim_C5_tree_inference (t : List ActRow) (i : ℕ) (h : i < t.length) :
    ((hasChildFlags t).getD i false = true ↔
      ∃ b, t.get? (i + 1) = some b ∧
        jsStartsWith b.itemCode ((t.getD i defRow).itemCode ++ "-") = true ∧
        countDash b.itemCode = countDash (t.getD i defRow).itemCode + 1) ∧
      (i + 1 = t.length → (hasChildFlags t).getD i false = false) := by
  constructor
  · rw [hasChildFlags_true_iff t i h]
    constructor
    · rintro ⟨b, hb, hc⟩
      simp only [isChildCode, Bool.and_eq_true, beq_iff_eq] at hc
      exact ⟨b, hb, hc.1, hc.2⟩
    · rintro ⟨b, hb, h1, h2⟩
      refine ⟨b, hb, ?_⟩
      simp only [isChildCode, Bool.and_eq_true, beq_iff_eq]
      exact ⟨h1, h2⟩
  · intro hlen
    by_contra hne
    have htrue : (hasChildFlags t).getD i false = true := by
      cases hv : (hasChildFlags t).getD i false
      · exact absurd hv hne
      · rfl
    obtain ⟨b, hb, _⟩ := (hasChildFlags_true_iff t i h).mp htrue
    have : t.get? (i + 1) = none := List.get?_eq_none.mpr (by omega)
    rw [this] at hb
    cases hb

/-- Witness for C5 at the two-row table ["A"; "A-1"], row 0. -/
theorem claim_C5_witness :
    (hasChildFlags [⟨"A", "", CellVal.str "", "", CellVal.str "", ""⟩,
        ⟨"A-1", "", CellVal.str "", "", CellVal.str "", ""⟩]).getD 0 false = true :=
  (claim_C5_tree_inference _ 0 (by decide)).1.mpr
    ⟨⟨"A-1", "", CellVal.str "", "", CellVal.str "", ""⟩, by decide, by decide, by decide⟩

/-! ## String-building lemmas for the roll-up formulas -/

theorem strExt {a b : String} (h : a.data = b.data) : a = b := by
  cases a with
  | mk la =>
      cases b with
      | mk lb =>
          have h2 : la = lb := h
          rw [h2]

theorem strAppend_assoc (a b c : String) : a ++ b ++ c = a ++ (b ++ c) :=
  strExt (by simp [strData_append, List.append_assoc])

theorem strAppend_empty (a : String) : a ++ "" = a :=
  strExt (by rw [strData_append]; show a.data ++ [] = a.data; rw [List.append_nil])

/-- Concatenation of a list of strings. -/
def strConcat : List String → String
  | [] => ""
  | x :: xs => x ++ strConcat xs

theorem sumRefFold_eq (p : Act) :
    ∀ (acts : List Act) (init : String),
      sumRefFold acts p init =
        init ++
          strConcat
            ((acts.filter (childRefCond p)).map
              (fun it => "J" ++ natToStr it.rowNumber ++ ",")) := by
  intro acts
  induction acts with
  | nil => intro init; simp [sumRefFold, strConcat, strAppend_empty]
  | cons x rest ih =>
      intro init
      have hstep : sumRefFold (x :: rest) p init =
          sumRefFold rest p
            (if childRefCond p x then init ++ ("J" ++ natToStr x.rowNumber ++ ",") else init) :=
        rfl
      rw [hstep]
      by_cases hc : childRefCond p x
      · rw [if_pos hc, ih, List.filter_cons_of_pos (by simpa using hc), List.map_cons]
        show init ++ ("J" ++ natToStr x.rowNumber ++ ",") ++ strConcat _ =
          init ++ (("J" ++ natToStr x.rowNumber ++ ",") ++ strConcat _)
        rw [strAppend_assoc]
      · rw [if_neg hc, ih, List.filter_cons_of_neg (by simpa using hc)]

theorem dropLast_append_left (as : List α) :
    ∀ bs : List α, bs ≠ [] → (as ++ bs).dropLast = as ++ bs.dropLast := by
  induction as with
  | nil => intro bs _; simp
  | cons a as ih =>
      intro bs hbs
      cases as with
      | nil =>
          cases bs with
          | nil => exact absurd rfl hbs
          | cons b bs2 => simp [List.dropLast]
      | cons a2 as2 =>
          have := ih bs hbs
          simp only [List.cons_append] at this ⊢
          rw [List.dropLast_cons₂, this]

theorem strConcat_comma_ne_nil (z : String) (zs : List String) :
    (strConcat ((z ++ ",") :: zs)).data ≠ [] := by
  show ((z ++ ",") ++ strConcat zs).data ≠ []
  rw [strData_append, strData_append]
  simp

theorem strConcat_comma_dropLast :
    ∀ rs : List String, rs ≠ [] →
      (strConcat (rs.map (fun r => r ++ ","))).data.dropLast = (intercalateComma rs).data := by
  intro rs
  induction rs with
  | nil => intro hne; exact absurd rfl hne
  | cons x rest ih =>
      intro _
      cases rest with
      | nil =>
          show ((x ++ ",") ++ strConcat []).data.dropLast = x.data
          rw [show strConcat [] = "" from rfl, strAppend_empty, strData_append]
          show (x.data ++ [',']).dropLast = x.data
          rw [List.dropLast_concat]
      | cons y t =>
          show ((x ++ ",") ++ strConcat (((y :: t).map (fun r => r ++ ",")))).data.dropLast =
            (x ++ "," ++ intercalateComma (y :: t)).data
          rw [strData_append]
          rw [dropLast_append_left _ _ (by simpa using strConcat_comma_ne_nil y _)]
          rw [ih (by simp)]
          simp [strData_append, List.append_assoc]

theorem childSumFormula_eq_spec (acts : List Act) (p : Act)
    (hne : acts.filter (childRefCond p) ≠ []) :
    childSumFormula acts p = specChildCostSum acts p := by
  unfold childSumFormula specChildCostSum
  rw [sumRefFold_eq]
  apply strExt
  rw [strData_append, strData_append, strData_append]
  simp only [jsDropLastChar]
  have hmapmap :
      (acts.filter (childRefCond p)).map (fun it => "J" ++ natToStr it.rowNumber ++ ",") =
        ((acts.filter (childRefCond p)).map (fun it => "J" ++ natToStr it.rowNumber)).map
          (fun r => r ++ ",") := by
    rw [List.map_map]
    rfl
  rw [hmapmap]
  have hrs : ((acts.filter (childRefCond p)).map (fun it => "J" ++ natToStr it.rowNumber)) ≠ [] := by
    simpa using hne
  show (("=SUM(" ++ strConcat _).data).dropLast ++ [')'] = _
  rw [strData_append]
  rw [dropLast_append_left]
  · rw [strConcat_comma_dropLast _ hrs]
  · cases hrsv : (acts.filter (childRefCond p)).map (fun it => "J" ++ natToStr it.rowNumber) with
    | nil => exact absurd hrsv hrs
    | cons z zs =>
        simp only [List.map_cons]
        exact strConcat_comma_ne_nil z _

/-! ## Activity-object construction lemmas -/

theorem buildActs_length (t : List ActRow) :
    ∀ (r : ℕ) (fs : List Bool), (buildActs r t fs).length = t.length := by
  induction t with
  | nil => intro r fs; rfl
  | cons a rest ih => intro r fs; simpa [buildActs] using ih (r + 1) fs.tail

theorem actsOf_length (top : ℕ) (t : List ActRow) : (actsOf top t).length = t.length :=
  buildActs_length t top (hasChildFlags t)

theorem buildActs_getD (t : List ActRow) :
    ∀ (r : ℕ) (fs : List Bool) (i : ℕ), i < t.length →
      (buildActs r t fs).getD i defAct =
        mkAct (r + i) (t.getD i defRow) (fs.getD i false) := by
  induction t with
  | nil => intro r fs i hi; simp at hi
  | cons a rest ih =>
      intro r fs i hi
      cases i with
      | zero =>
          simp only [buildActs, List.getD_cons_zero, Nat.add_zero]
          rw [headD_eq_getD_zero]
      | succ i =>
          simp only [buildActs, List.getD_cons_succ]
          rw [ih (r + 1) fs.tail i (by simpa using Nat.lt_of_succ_lt_succ hi)]
          rw [tail_getD_bool]
          have : r + 1 + i = r + (i + 1) := by omega
          rw [this]

theorem actsOf_getD (top : ℕ) (t : List ActRow) (i : ℕ) (h : i < t.length) :
    (actsOf top t).getD i defAct =
      mkAct (top + i) (t.getD i defRow) ((hasChildFlags t).getD i false) :=
  buildActs_getD t top (hasChildFlags t) i h

theorem updateActivityRows_getD (top : ℕ) (t : List ActRow) (i : ℕ) (h : i < t.length) :
    (updateActivityRows top t).getD i defOut =
      transformAct (actsOf top t) ((actsOf top t).getD i defAct) := by
  unfold updateActivityRows
  exact getD_map (actsOf top t) _ defAct defOut i (by rw [actsOf_length]; exact h)

theorem bif_eq_pif {α : Type} [DecidableEq α] (x y : α) (u v : β) :
    (if x == y then u else v) = (if x = y then u else v) := by
  by_cases hp : x = y <;> simp [hp]

theorem bif_or_eq_pif {α : Type} [DecidableEq α] (x y z : α) (u v : β) :
    (if x == y || x == z then u else v) = (if x = y ∨ x = z then u else v) := by
  by_cases h1 : x = y <;> by_cases h2 : x = z <;> simp [h1, h2]

theorem actsOf_children_ne_nil (top : ℕ) (t : List ActRow) (i : ℕ) (h : i < t.length)
    (hflag : (hasChildFlags t).getD i false = true) :
    (actsOf top t).filter (childRefCond ((actsOf top t).getD i defAct)) ≠ [] := by
  obtain ⟨b, hb, hchild⟩ := (hasChildFlags_true_iff t i h).mp hflag
  have hi1 : i + 1 < t.length := by
    rcases List.get?_eq_some.mp hb with ⟨hlt, _⟩
    exact hlt
  have hbval : t.getD (i + 1) defRow = b := by
    have hg := get?_eq_some_getD t defRow (i + 1) hi1
    rw [hb] at hg
    exact (Option.some.inj hg).symm
  have hmem : (actsOf top t).getD (i + 1) defAct ∈ actsOf top t :=
    getD_mem _ defAct (i + 1) (by rw [actsOf_length]; exact hi1)
  have hcond :
      childRefCond ((actsOf top t).getD i defAct) ((actsOf top t).getD (i + 1) defAct) = true := by
    rw [actsOf_getD top t (i + 1) hi1, hbval, actsOf_getD top t i h]
    simp only [childRefCond, mkAct]
    simpa [isChildCode] using hchild
  exact List.ne_nil_of_mem (List.mem_filter.mpr ⟨hmem, hcond⟩)

/-- Claim C7: for every row marked hasChild, the aggregator chooses exactly
one of two policies: preserve-measured-quantity mode iff the row's unit is not
"LS" and its quantity is neither exactly 1 nor the placeholder "[qty]";
otherwise lump-sum mode, which forces quantity = 1, unit = "LS", rate = blank,
and cost = a SUM formula over the cost cells (column J) of its immediate
children.  In particular, a parent whose own quantity is exactly 1 and unit is
"LS" always takes lump-sum mode. -/
theorem claim_C7_aggregator_parent (top : ℕ) (t : List ActRow) (i : ℕ)
    (h : i < t.length)
    (hc : ((actsOf top t).getD i defAct).hasChild = true) :
    ((updateActivityRows top t).getD i defOut =
        (if ((actsOf top t).getD i defAct).unit ≠ "LS" ∧
            ((actsOf top t).getD i defAct).quantity ≠ CellVal.num 1 ∧
            ((actsOf top t).getD i defAct).quantity ≠ CellVal.str "[qty]" then
          (⟨((actsOf top t).getD i defAct).quantity, ((actsOf top t).getD i defAct).unit,
            CellVal.str (specChildCostSum (actsOf top t) ((actsOf top t).getD i defAct)),
            leafCostFormula ((actsOf top t).getD i defAct).rowNumber⟩ : ActOut)
        else
          ⟨CellVal.num 1, "LS", CellVal.str "",
            specChildCostSum (actsOf top t) ((actsOf top t).getD i defAct)⟩)) ∧
      (((actsOf top t).getD i defAct).quantity = CellVal.num 1 ∧
          ((actsOf top t).getD i defAct).unit = "LS" →
        (updateActivityRows top t).getD i defOut =
          ⟨CellVal.num 1, "LS", CellVal.str "",
            specChildCostSum (actsOf top t) ((actsOf top t).getD i defAct)⟩) := by
  have hflag : (hasChildFlags t).getD i false = true := by
    have hA := actsOf_getD top t i h
    rw [hA] at hc
    exact hc
  have hne := actsOf_children_ne_nil top t i h hflag
  have hsum :
      childSumFormula (actsOf top t) ((actsOf top t).getD i defAct) =
        specChildCostSum (actsOf top t) ((actsOf top t).getD i defAct) :=
    childSumFormula_eq_spec _ _ hne
  have hout := updateActivityRows_getD top t i h
  have hiff :
      (((actsOf top t).getD i defAct).unit != "LS" &&
          !(((actsOf top t).getD i defAct).quantity == CellVal.num 1) &&
          !(((actsOf top t).getD i defAct).quantity == CellVal.str "[qty]")) = true ↔
        (((actsOf top t).getD i defAct).unit ≠ "LS" ∧
          ((actsOf top t).getD i defAct).quantity ≠ CellVal.num 1 ∧
          ((actsOf top t).getD i defAct).quantity ≠ CellVal.str "[qty]") := by
    simp [Bool.and_eq_true, bne_iff_ne, beq_iff_eq, and_assoc]
  have htrans :
      transformAct (actsOf top t) ((actsOf top t).getD i defAct) =
        (if ((actsOf top t).getD i defAct).unit ≠ "LS" ∧
            ((actsOf top t).getD i defAct).quantity ≠ CellVal.num 1 ∧
            ((actsOf top t).getD i defAct).quantity ≠ CellVal.str "[qty]" then
          (⟨((actsOf top t).getD i defAct).quantity, ((actsOf top t).getD i defAct).unit,
            CellVal.str (specChildCostSum (actsOf top t) ((actsOf top t).getD i defAct)),
            leafCostFormula ((actsOf top t).getD i defAct).rowNumber⟩ : ActOut)
        else
          ⟨CellVal.num 1, "LS", CellVal.str "",
            specChildCostSum (actsOf top t) ((actsOf top t).getD i defAct)⟩) := by
    by_cases hp : ((actsOf top t).getD i defAct).unit ≠ "LS" ∧
        ((actsOf top t).getD i defAct).quantity ≠ CellVal.num 1 ∧
        ((actsOf top t).getD i defAct).quantity ≠ CellVal.str "[qty]"
    · rw [if_pos hp]
      have hbv := hiff.mpr hp
      simp only [transformAct, hc, if_true, hbv]
      rw [hsum]
    · rw [if_neg hp]
      have hbv :
          (((actsOf top t).getD i defAct).unit != "LS" &&
              !(((actsOf top t).getD i defAct).quantity == CellVal.num 1) &&
              !(((actsOf top t).getD i defAct).quantity == CellVal.str "[qty]")) = false := by
        cases hbc : (((actsOf top t).getD i defAct).unit != "LS" &&
            !(((actsOf top t).getD i defAct).quantity == CellVal.num 1) &&
            !(((actsOf top t).getD i defAct).quantity == CellVal.str "[qty]"))
        · rfl
        · exact absurd (hiff.mp hbc) hp
      simp only [transformAct, hc, if_true, hbv, Bool.false_eq_true, if_false]
      rw [hsum]
  refine ⟨hout.trans htrans, fun hq => ?_⟩
  rw [hout, htrans, if_neg (fun hpc => hpc.2.1 hq.1)]

/-- Witness for C7: a parent with authored quantity 2 and unit "m" takes
preserve-measured-quantity mode with the child roll-up on the rate. -/
theorem claim_C7_witness :
    (updateActivityRows 10
        [⟨"A", "n", CellVal.num 2, "m", CellVal.num 5, "c"⟩,
         ⟨"A-1", "n", CellVal.str "", "", CellVal.str "", ""⟩]).getD 0 defOut =
      ⟨CellVal.num 2, "m", CellVal.str "=SUM(J11)",
       "=IFERROR(IF(G10=\"-\", \"-\", G10*I10), \"[pending values]\")"⟩ :=
  ((claim_C7_aggregator_parent 10
      [⟨"A", "n", CellVal.num 2, "m", CellVal.num 5, "c"⟩,
       ⟨"A-1", "n", CellVal.str "", "", CellVal.str "", ""⟩] 0
      (by decide) (by decide)).1).trans (by decide)

/-- Claim C8: for every row not marked hasChild (a leaf), the aggregator
replaces a blank quantity with "[qty]", a blank unit with "[unit]", and a
blank or "#REF!" rate with "[rate]", leaves non-blank values unchanged, and
sets the row's cost to the conditional formula
`=IFERROR(IF(G<r>="-", "-", G<r>*I<r>), "[pending values]")` referencing the
leaf's own row r = dataTopRow + i. -/
theorem claim_C8_aggregator_leaf (top : ℕ) (t : List ActRow) (i : ℕ)
    (h : i < t.length)
    (hc : ((actsOf top t).getD i defAct).hasChild = false) :
    (updateActivityRows top t).getD i defOut =
      ⟨if ((actsOf top t).getD i defAct).quantity = CellVal.str "" then CellVal.str "[qty]"
         else ((actsOf top t).getD i defAct).quantity,
       if ((actsOf top t).getD i defAct).unit = "" then "[unit]"
         else ((actsOf top t).getD i defAct).unit,
       if ((actsOf top t).getD i defAct).rate = CellVal.str "" ∨
           ((actsOf top t).getD i defAct).rate = CellVal.str "#REF!" then CellVal.str "[rate]"
         else ((actsOf top t).getD i defAct).rate,
       leafCostFormula (top + i)⟩ := by
  have hout := updateActivityRows_getD top t i h
  have hrow : ((actsOf top t).getD i defAct).rowNumber = top + i := by
    rw [actsOf_getD top t i h]
    rfl
  rw [hout]
  simp only [transformAct, hc, Bool.false_eq_true, if_false]
  rw [bif_eq_pif, bif_eq_pif, bif_or_eq_pif, hrow]

/-- Witness for C8: a leaf with blank quantity, blank unit and "#REF!" rate
shows the three placeholders and the dash-or-product cost formula for its own
row 10. -/
theorem claim_C8_witness :
    (updateActivityRows 10
        [⟨"B", "n", CellVal.str "", "", CellVal.str "#REF!", "c"⟩]).getD 0 defOut =
      ⟨CellVal.str "[qty]", "[unit]", CellVal.str "[rate]",
       "=IFERROR(IF(G10=\"-\", \"-\", G10*I10), \"[pending values]\")"⟩ :=
  (claim_C8_aggregator_leaf 10 [⟨"B", "n", CellVal.str "", "", CellVal.str "#REF!", "c"⟩] 0
      (by decide) (by decide)).trans (by decide)

/-! ## Claim about the delete-and-refresh range check -/

/-- Claim C9: for every selection whose top row is above dataTopRow or whose
bottom row is below dataBottomRow, deleteSelectedActivitiesAndRefresh fails
with a RangeError before performing any mutation: the sheet it returns is
identical to the input (no rows deleted, no codes rewritten, no formulas
written) together with the error. -/
theorem claim_C9_delete_range_error (s : Sheet) (selTop selBot : ℕ)
    (h : selTop < dataTopRowOf s ∨ selBot > dataBottomRowOf s) :
    deleteSelectedActivitiesAndRefresh s selTop selBot =
      (s, some "Selected row not deleted - row not within data range!") := by
  unfold deleteSelectedActivitiesAndRefresh
  rw [if_pos h]

/-- Witness for C9 at a one-row sheet with a selection above the data top. -/
theorem claim_C9_witness :
    (5 < dataTopRowOf (⟨[⟨"A", "n", CellVal.str "", "", CellVal.str "", ""⟩]⟩ : Sheet) ∨
        5 > dataBottomRowOf ⟨[⟨"A", "n", CellVal.str "", "", CellVal.str "", ""⟩]⟩) ∧
      deleteSelectedActivitiesAndRefresh
          ⟨[⟨"A", "n", CellVal.str "", "", CellVal.str "", ""⟩]⟩ 5 5 =
        (⟨[⟨"A", "n", CellVal.str "", "", CellVal.str "", ""⟩]⟩,
         some "Selected row not deleted - row not within data range!") :=
  ⟨by decide, claim_C9_delete_range_error _ 5 5 (by decide)⟩

/-! ## Insertion planner lemmas -/

theorem itemCodesFrom_append (xs : List String) :
    ∀ (r : ℕ) (ys : List String),
      itemCodesFrom r (xs ++ ys) = itemCodesFrom r xs ++ itemCodesFrom (r + xs.length) ys := by
  induction xs with
  | nil => intro r ys; simp [itemCodesFrom]
  | cons x xs ih =>
      intro r ys
      simp only [List.cons_append, itemCodesFrom, List.append_eq, List.length_cons]
      rw [ih (r + 1)]
      have harith : r + 1 + xs.length = r + (xs.length + 1) := by omega
      rw [harith]

theorem itemCodesFrom_length (xs : List String) :
    ∀ r : ℕ, (itemCodesFrom r xs).length = xs.length := by
  induction xs with
  | nil => intro r; rfl
  | cons x xs ih => intro r; simpa [itemCodesFrom] using ih (r + 1)

theorem itemCodesFrom_filter_true (p : String → Bool) (xs : List String) :
    ∀ r : ℕ, (∀ c ∈ xs, p c = true) →
      (itemCodesFrom r xs).filter (fun it => p it.2) = itemCodesFrom r xs := by
  induction xs with
  | nil => intro r _; rfl
  | cons x xs ih =>
      intro r hall
      simp only [itemCodesFrom, List.filter_cons]
      rw [hall x (List.mem_cons_self x xs)]
      simp only [if_true]
      rw [ih (r + 1) (fun c hc => hall c (List.mem_cons_of_mem x hc))]

theorem itemCodesFrom_filter_false (p : String → Bool) (xs : List String) :
    ∀ r : ℕ, (∀ c ∈ xs, p c = false) →
      (itemCodesFrom r xs).filter (fun it => p it.2) = [] := by
  induction xs with
  | nil => intro r _; rfl
  | cons x xs ih =>
      intro r hall
      simp only [itemCodesFrom, List.filter_cons]
      rw [hall x (List.mem_cons_self x xs)]
      simp only [Bool.false_eq_true, if_false]
      exact ih (r + 1) (fun c hc => hall c (List.mem_cons_of_mem x hc))

theorem itemCodesFrom_filter_map_snd (p : String → Bool) (xs : List String) :
    ∀ r : ℕ,
      ((itemCodesFrom r xs).filter (fun it => p it.2)).map Prod.snd = xs.filter p := by
  induction xs with
  | nil => intro r; rfl
  | cons x xs ih =>
      intro r
      simp only [itemCodesFrom, List.filter_cons]
      by_cases hp : p x
      · rw [hp]
        simp only [if_true, List.map_cons]
        rw [ih (r + 1)]
      · rw [Bool.eq_false_iff.mpr hp]
        simp only [Bool.false_eq_true, if_false]
        exact ih (r + 1)

theorem itemCodesFrom_getLast (xs : List String) (h : xs ≠ []) :
    ∀ r : ℕ, ∃ c, xs.getLast? = some c ∧
      (itemCodesFrom r xs).getLast? = some (r + xs.length - 1, c) := by
  induction xs with
  | nil => exact absurd rfl h
  | cons x xs ih =>
      intro r
      cases xs with
      | nil => exact ⟨x, rfl, by simp [itemCodesFrom]⟩
      | cons y t =>
          obtain ⟨c, hc1, hc2⟩ := ih (by simp) (r + 1)
          refine ⟨c, ?_, ?_⟩
          · rw [List.getLast?_cons_cons]
            exact hc1
          · show ((r, x) :: itemCodesFrom (r + 1) (y :: t)).getLast? = _
            have hne : itemCodesFrom (r + 1) (y :: t) ≠ [] := by
              simp [itemCodesFrom]
            cases hv : itemCodesFrom (r + 1) (y :: t) with
            | nil => exact absurd hv hne
            | cons q qs =>
                rw [List.getLast?_cons_cons]
                rw [← hv, hc2]
                have harith : r + 1 + (y :: t).length - 1 = r + (x :: y :: t).length - 1 := by
                  simp only [List.length_cons]
                  omega
                rw [harith]

theorem getLast?_mem_own : ∀ (l : List α) (a : α), l.getLast? = some a → a ∈ l := by
  intro l
  induction l with
  | nil => intro a h; cases h
  | cons x xs ih =>
      intro a h
      cases xs with
      | nil =>
          have hx : x = a := Option.some.inj h
          rw [← hx]
          exact List.mem_cons_self x []
      | cons y t =>
          rw [List.getLast?_cons_cons] at h
          exact List.mem_cons_of_mem x (ih a h)

theorem mapGetLast (f : α → β) : ∀ l : List α, (l.map f).getLast? = l.getLast?.map f := by
  intro l
  induction l with
  | nil => rfl
  | cons x xs ih =>
      cases xs with
      | nil => rfl
      | cons y t =>
          simp only [List.map_cons] at ih ⊢
          rw [List.getLast?_cons_cons, List.getLast?_cons_cons]
          exact ih

theorem itemCodesFrom_mem_snd (xs : List String) :
    ∀ (r : ℕ) (it : ℕ × String), it ∈ itemCodesFrom r xs → it.2 ∈ xs := by
  induction xs with
  | nil => intro r it hit; simp [itemCodesFrom] at hit
  | cons x xs ih =>
      intro r it hit
      rcases List.mem_cons.mp hit with h | h
      · rw [h]
        exact List.mem_cons_self x xs
      · exact List.mem_cons_of_mem x (ih (r + 1) it h)

theorem isChildCode_isDescendantCode (c pc : String) (h : isChildCode c pc = true) :
    isDescendantCode c pc = true := by
  simp only [isChildCode, Bool.and_eq_true, beq_iff_eq] at h
  simp only [isDescendantCode, Bool.and_eq_true, decide_eq_true_eq]
  exact ⟨h.1, by omega⟩

theorem desc_and_level (c pc : String) :
    (isDescendantCode c pc && (countDash c == countDash pc + 1)) = isChildCode c pc := by
  simp only [isDescendantCode, isChildCode]
  by_cases hb : countDash c = countDash pc + 1
  · simp [hb]
  · have hf : (countDash c == countDash pc + 1) = false := by simpa using hb
    simp [hf]

/-- Claim C1: over a table in pre-order depth-first order — the parent's
descendants (codes prefixed by parent + "-") form a contiguous block right
below it (H1), a parent with any descendant has an immediate child row (H2),
and immediate-child codes have incrementable final segments (H3) — the
insertion planner invoked on a parent row with no immediate children returns
new child code parent + "-1" with insertion row parent.position + 1; when
immediate children exist it returns the last immediate child's code with its
final segment incremented as the new code, and the insertion row is the
position immediately after the parent's last descendant at any depth
(parent row + number of descendants + 1). -/
theorem claim_C1_insertion_planner (pr : ℕ) (pc : String) (below : List String)
    (H1 : ∃ pre post, below = pre ++ post ∧ (∀ c ∈ pre, isDescendantCode c pc = true) ∧
        (∀ c ∈ post, isDescendantCode c pc = false))
    (H2 : (∀ c ∈ below, isChildCode c pc = false) → ∀ c ∈ below, isDescendantCode c pc = false)
    (H3 : ∀ c ∈ below, isChildCode c pc = true → (incrementLastItemCodeSegment c).isSome = true) :
    ((below.filter (fun c => isChildCode c pc) = [] →
        computeNewChildItemCodeAndInsertionRow pr pc below =
          some (pr + 1, pc ++ "-1", countDash pc + 1)) ∧
      ∀ lc, (below.filter (fun c => isChildCode c pc)).getLast? = some lc →
        ∃ nc, incrementLastItemCodeSegment lc = some nc ∧
          computeNewChildItemCodeAndInsertionRow pr pc below =
            some (pr + 1 + below.countP (fun c => isDescendantCode c pc), nc,
              countDash pc + 1)) := by
  constructor
  · intro hnochild
    have hallnc : ∀ c ∈ below, isChildCode c pc = false := by
      intro c hc
      have := List.filter_eq_nil_iff.mp hnochild c hc
      simpa using this
    have halldesc : ∀ c ∈ below, isDescendantCode c pc = false := H2 hallnc
    have hchildnil :
        (itemCodesFrom (pr + 1) below).filter (fun item => isDescendantCode item.2 pc) = [] :=
      itemCodesFrom_filter_false _ below (pr + 1) halldesc
    simp only [computeNewChildItemCodeAndInsertionRow]
    rw [hchildnil]
    rfl
  · intro lc hlast
    obtain ⟨pre, post, hsplit, hpre, hpost⟩ := H1
    have hpostnc : ∀ c ∈ post, isChildCode c pc = false := by
      intro c hc
      cases hv : isChildCode c pc
      · rfl
      · exact absurd (isChildCode_isDescendantCode c pc hv) (by simp [hpost c hc])
    have hfilter_below : below.filter (fun c => isChildCode c pc) =
        pre.filter (fun c => isChildCode c pc) := by
      rw [hsplit, List.filter_append]
      have hpostfil : post.filter (fun c => isChildCode c pc) = [] :=
        List.filter_eq_nil_iff.mpr (by intro c hc; simp [hpostnc c hc])
      rw [hpostfil, List.append_nil]
    have hlast2 : (pre.filter (fun c => isChildCode c pc)).getLast? = some lc := by
      rw [← hfilter_below]
      exact hlast
    have hfilterpre_ne : pre.filter (fun c => isChildCode c pc) ≠ [] := by
      intro hnil
      rw [hnil] at hlast2
      cases hlast2
    have hpre_ne : pre ≠ [] := by
      intro hnil
      rw [hnil] at hfilterpre_ne
      exact hfilterpre_ne rfl
    have hchild_eq :
        (itemCodesFrom (pr + 1) below).filter (fun item => isDescendantCode item.2 pc) =
          itemCodesFrom (pr + 1) pre := by
      rw [hsplit, itemCodesFrom_append, List.filter_append,
        itemCodesFrom_filter_true _ pre (pr + 1) hpre,
        itemCodesFrom_filter_false _ post _ hpost, List.append_nil]
    have hchild_ne : itemCodesFrom (pr + 1) pre ≠ [] := by
      intro hnil
      have := itemCodesFrom_length pre (pr + 1)
      rw [hnil] at this
      simp only [List.length_nil] at this
      exact hpre_ne (List.length_eq_zero.mp this.symm)
    have hmatch_eq2 :
        (itemCodesFrom (pr + 1) pre).filter (fun item => countDash item.2 == countDash pc + 1) =
          (itemCodesFrom (pr + 1) pre).filter (fun item => isChildCode item.2 pc) := by
      apply List.filter_congr
      intro it hit
      have hc2 : it.2 ∈ pre := itemCodesFrom_mem_snd pre (pr + 1) it hit
      rw [← desc_and_level it.2 pc, hpre it.2 hc2, Bool.true_and]
    have hmatch_last :
        ∃ m : ℕ × String,
          ((itemCodesFrom (pr + 1) pre).filter
              (fun item => isChildCode item.2 pc)).getLast? = some m ∧ m.2 = lc := by
      have hms := itemCodesFrom_filter_map_snd (fun c => isChildCode c pc) pre (pr + 1)
      have hgl := mapGetLast Prod.snd
        ((itemCodesFrom (pr + 1) pre).filter (fun item => isChildCode item.2 pc))
      rw [hms] at hgl
      cases hm : ((itemCodesFrom (pr + 1) pre).filter
          (fun item => isChildCode item.2 pc)).getLast? with
      | none =>
          rw [hm] at hgl
          rw [hlast2] at hgl
          cases hgl
      | some m =>
          rw [hm] at hgl
          rw [hlast2] at hgl
          exact ⟨m, rfl, Option.some.inj hgl.symm⟩
    obtain ⟨m, hm, hmlc⟩ := hmatch_last
    obtain ⟨cl, _, habs⟩ := itemCodesFrom_getLast pre hpre_ne (pr + 1)
    have hlc_mem : lc ∈ below ∧ isChildCode lc pc = true := by
      have hmemf : lc ∈ pre.filter (fun c => isChildCode c pc) :=
        getLast?_mem_own _ lc hlast2
      have hmf := List.mem_filter.mp hmemf
      exact ⟨hsplit ▸ List.mem_append.mpr (Or.inl hmf.1), hmf.2⟩
    obtain ⟨nc, hnc⟩ := Option.isSome_iff_exists.mp (H3 lc hlc_mem.1 hlc_mem.2)
    refine ⟨nc, hnc, ?_⟩
    have hcountP : below.countP (fun c => isDescendantCode c pc) = pre.length := by
      rw [hsplit, List.countP_append,
        List.countP_eq_length.mpr (fun a ha => by simp [hpre a ha]),
        List.countP_eq_zero.mpr (fun a ha => by simp [hpost a ha])]
      omega
    simp only [computeNewChildItemCodeAndInsertionRow]
    rw [hchild_eq]
    rw [if_neg (by
      intro hlen0
      have := itemCodesFrom_length pre (pr + 1)
      rw [hlen0] at this
      exact hpre_ne (List.length_eq_zero.mp this.symm))]
    rw [hmatch_eq2, hm, habs]
    dsimp only
    rw [hmlc, hnc]
    dsimp only
    rw [hcountP]
    have harith : pr + 1 + pre.length - 1 + 1 = pr + 1 + pre.length := by omega
    rw [harith]

/-- Witness for C1: parent "A-1-1" at row 10 with children "A-1-1-1".."A-1-1-3"
below it (and a following sibling subtree "A-2"): the planner yields
"A-1-1-4" at row 14, immediately after the last descendant. -/
theorem claim_C1_witness :
    computeNewChildItemCodeAndInsertionRow 10 "A-1-1"
        ["A-1-1-1", "A-1-1-2", "A-1-1-3", "A-2"] = some (14, "A-1-1-4", 3) := by
  obtain ⟨nc, hinc, hres⟩ :=
    (claim_C1_insertion_planner 10 "A-1-1" ["A-1-1-1", "A-1-1-2", "A-1-1-3", "A-2"]
        ⟨["A-1-1-1", "A-1-1-2", "A-1-1-3"], ["A-2"], by decide⟩ (by decide) (by decide)).2
      "A-1-1-3" (by decide)
  have hnc : nc = "A-1-1-4" := by
    have hd : incrementLastItemCodeSegment "A-1-1-3" = some "A-1-1-4" := by decide
    rw [hd] at hinc
    exact (Option.some.inj hinc).symm
  rw [hnc] at hres
  exact hres.trans (by decide)

end BQ
